import Mathlib

/-!
Verification of the rocksdb-clone LSM storage engine
(`src/exercises/rocksdb-clone/src/`): memtable, write-ahead log,
SSTable binary format, and the persistent store composed of them.

Files are modelled as `List Nat` of byte values; machine integers are
`Nat` with explicit `% 2^64` where the code truncates.  Fallible
operations return `Except Err _` mirroring the crate's `Result`.
-/

set_option maxRecDepth 100000

namespace RocksClone

/-- A byte string (file contents, keys, values). -/
abbrev Bytes := List Nat

/-- Error kinds of the crate's `Error` enum that the storage layer surfaces:
`Io` for I/O failures, `corrupt` for `Error::Custom` (the spec's `Corrupt`
kind), `deserialization` for `Error::Deserialization`, and
`databaseNotFound` for `Error::DatabaseNotFound`. -/
inductive Err where
  | io
  | corrupt
  | deserialization
  | databaseNotFound
deriving DecidableEq, Repr

/-- `u64::to_le_bytes`: the eight little-endian bytes of `n % 2^64`. -/
def u64le (n : Nat) : Bytes :=
  [n % 2^8, n / 2^8 % 2^8, n / 2^16 % 2^8, n / 2^24 % 2^8,
   n / 2^32 % 2^8, n / 2^40 % 2^8, n / 2^48 % 2^8, n / 2^56 % 2^8]

/-- `u64::to_be_bytes`: the eight big-endian bytes of `n % 2^64`. -/
def u64be (n : Nat) : Bytes := (u64le n).reverse

/-- `u64::from_le_bytes` on an 8-byte buffer (anything else decodes to 0;
the code only ever applies it to exact 8-byte reads). -/
def decodeLE (bs : Bytes) : Nat :=
  match bs with
  | [b0, b1, b2, b3, b4, b5, b6, b7] =>
      b0 + 2^8 * b1 + 2^16 * b2 + 2^24 * b3 + 2^32 * b4 + 2^40 * b5 +
        2^48 * b6 + 2^56 * b7
  | _ => 0

/-- `u64::from_be_bytes` on an 8-byte buffer. -/
def decodeBE (bs : Bytes) : Nat := decodeLE bs.reverse

@[simp] theorem u64le_length (n : Nat) : (u64le n).length = 8 := rfl

@[simp] theorem u64be_length (n : Nat) : (u64be n).length = 8 := rfl

theorem decodeLE_u64le (n : Nat) : decodeLE (u64le n) = n % 2^64 := by
  show n % 2^8 + 2^8 * (n / 2^8 % 2^8) + 2^16 * (n / 2^16 % 2^8) +
      2^24 * (n / 2^24 % 2^8) + 2^32 * (n / 2^32 % 2^8) +
      2^40 * (n / 2^40 % 2^8) + 2^48 * (n / 2^48 % 2^8) +
      2^56 * (n / 2^56 % 2^8) = n % 2^64
  rw [show (2:Nat)^64 = 2^8 * 2^56 by norm_num, Nat.mod_mul,
      show (2:Nat)^56 = 2^8 * 2^48 by norm_num, Nat.mod_mul,
      show (2:Nat)^48 = 2^8 * 2^40 by norm_num, Nat.mod_mul,
      show (2:Nat)^40 = 2^8 * 2^32 by norm_num, Nat.mod_mul,
      show (2:Nat)^32 = 2^8 * 2^24 by norm_num, Nat.mod_mul,
      show (2:Nat)^24 = 2^8 * 2^16 by norm_num, Nat.mod_mul,
      show (2:Nat)^16 = 2^8 * 2^8 by norm_num, Nat.mod_mul]
  simp only [Nat.div_div_eq_div_mul]
  norm_num
  ring

theorem decodeLE_u64le_of_lt {n : Nat} (h : n < 2^64) :
    decodeLE (u64le n) = n := by
  rw [decodeLE_u64le, Nat.mod_eq_of_lt h]

theorem decodeBE_u64be (n : Nat) : decodeBE (u64be n) = n % 2^64 := by
  rw [decodeBE, u64be, List.reverse_reverse, decodeLE_u64le]

theorem decodeBE_u64be_of_lt {n : Nat} (h : n < 2^64) :
    decodeBE (u64be n) = n := by
  rw [decodeBE_u64be, Nat.mod_eq_of_lt h]

/-- `Read::read_exact` after a seek: read exactly `n` bytes starting at
offset `pos`, failing (with `UnexpectedEof`) if the file is too short. -/
def readExact (file : Bytes) (pos n : Nat) : Option Bytes :=
  if pos + n ≤ file.length then some ((file.drop pos).take n) else none

theorem readExact_eq {file a c d : Bytes} {pos n : Nat}
    (h : file = a ++ (c ++ d)) (hpos : pos = a.length) (hn : n = c.length) :
    readExact file pos n = some c := by
  subst h hpos hn
  rw [readExact, if_pos (by simp only [List.length_append]; omega)]
  rw [List.drop_left, List.take_left]

/-! ## SSTable (`storage/sstable.rs`) -/

/-- A `write_batch` entry: key and `Option` value (`None` is a tombstone). -/
abbrev Entry := Bytes × Option Bytes

/-- `MAGIC_NUMBER`. -/
def MAGIC : Nat := 0x1234567890ABCDEF

/-- The footer's magic field, written big-endian. -/
def magicBytes : Bytes := u64be MAGIC

/-- `u64::MAX`, the tombstone marker for the value-length field. -/
def U64MAX : Nat := 2^64 - 1

/-- Bytes of one data-block entry:
`[u64 key_len LE][key][u64 value_len LE][value]`, with `value_len =
u64::MAX` and no value bytes for a tombstone. -/
def dataEntry : Entry → Bytes
  | (k, some v) => u64le k.length ++ k ++ (u64le v.length ++ v)
  | (k, none) => u64le k.length ++ k ++ u64le U64MAX

/-- `current_offset` increment per entry in `write_batch`: key header (8) +
key + value header (8) + value bytes if present. -/
def entrySize : Entry → Nat
  | (k, some v) => 8 + k.length + 8 + v.length
  | (k, none) => 8 + k.length + 8

/-- The data block: entries concatenated in batch order. -/
def dataBlock (B : List Entry) : Bytes := (B.map dataEntry).flatten

/-- `current_offset` after streaming all entries (`index_start`/`data_size`
in `write_batch`). -/
def dataSize (B : List Entry) : Nat := (B.map entrySize).sum

/-- The `index_entries` list built while streaming the data block: each key
paired with the offset of its data entry, offsets accumulating from `off`. -/
def offsetsFrom (off : Nat) : List Entry → List (Bytes × Nat)
  | [] => []
  | e :: rest => (e.1, off) :: offsetsFrom (off + entrySize e) rest

/-- Bytes of one index-block entry: `[u64 key_len LE][key][u64 offset LE]`. -/
def indexEntry : Bytes × Nat → Bytes
  | (k, off) => u64le k.length ++ k ++ u64le off

/-- The index block: one entry per data entry, in batch order. -/
def indexBlock (B : List Entry) : Bytes :=
  ((offsetsFrom 0 B).map indexEntry).flatten

/-- The metadata block: `{num_entries, data_size, index_size}` encoded with
bincode's fixed-width big-endian configuration (three u64 fields).
`index_size` is the stream position after the index block minus
`index_start` as in the source. -/
def metaBytes (B : List Entry) : Bytes :=
  u64be B.length ++ u64be (dataSize B) ++
    u64be ((dataBlock B).length + (indexBlock B).length - dataSize B)

/-- `meta_start`: the stream position at which the metadata block begins. -/
def metaStart (B : List Entry) : Nat :=
  (dataBlock B).length + (indexBlock B).length

/-- The 24-byte footer: `[magic BE][meta_len LE][meta_offset LE]`. -/
def sstFooter (B : List Entry) : Bytes :=
  magicBytes ++ u64le (metaBytes B).length ++ u64le (metaStart B)

/-- `SSTable::write_batch`: the file contents produced for a batch (the file
is truncated first, so the result is exactly these bytes). -/
def writeBatch (B : List Entry) : Bytes :=
  dataBlock B ++ indexBlock B ++ metaBytes B ++ sstFooter B

/-- Decoding the metadata block (bincode fixed-width big-endian decode of
three u64 fields; fails when fewer than 24 bytes are available). -/
def decodeMeta (bs : Bytes) : Option (Nat × Nat × Nat) :=
  if bs.length < 24 then none
  else some (decodeBE (bs.take 8), decodeBE ((bs.drop 8).take 8),
             decodeBE ((bs.drop 16).take 8))

/-- The tail of `SSTable::get` once an index entry matched the key: seek to
`value_offset`, re-read the key header and key, read the value length, honor
the tombstone marker, and read the value (the source's chunked value read is
an exact read of `value_len` bytes). -/
def readDataEntry (file : Bytes) (voff : Nat) : Except Err (Option Bytes) :=
  match readExact file voff 8 with
  | none => .error .io
  | some sklenb =>
    let sklen := decodeLE sklenb
    match readExact file (voff + 8) sklen with
    | none => .error .io
    | some _ =>
      match readExact file (voff + 8 + sklen) 8 with
      | none => .error .io
      | some vlenb =>
        let vlen := decodeLE vlenb
        if vlen = U64MAX then .ok none
        else
          match readExact file (voff + 8 + sklen + 8) vlen with
          | none => .error .io
          | some v => .ok (some v)

/-- The index-scan loop of `SSTable::get` (`while stream_position < index_end`).
`fuel` bounds the number of iterations; every call supplies more fuel than
the loop can iterate (each iteration advances the position by at least 16
bytes), so the `0` branch is unreachable. -/
def scanIndex (file key : Bytes) (dataEnd indexEnd : Nat) :
    Nat → Nat → Except Err (Option Bytes)
  | 0, _ => .error .io
  | fuel + 1, pos =>
    if pos < indexEnd then
      match readExact file pos 8 with
      | none => .error .io
      | some klenb =>
        let klen := decodeLE klenb
        match readExact file (pos + 8) klen with
        | none => .error .io
        | some kb =>
          match readExact file (pos + 8 + klen) 8 with
          | none => .error .io
          | some offb =>
            let voff := decodeLE offb
            if kb = key then
              if dataEnd ≤ voff then .error .corrupt
              else readDataEntry file voff
            else scanIndex file key dataEnd indexEnd fuel (pos + 8 + klen + 8)
    else .ok none

/-- `SSTable::get`: bootstrap from the footer, validate, decode metadata,
then scan the index linearly. A file shorter than the footer yields
`Ok(None)`. -/
def sstGet (file key : Bytes) : Except Err (Option Bytes) :=
  if file.length < 24 then .ok none
  else
    let footerStart := file.length - 24
    match readExact file footerStart 24 with
    | none => .error .io
    | some footer =>
      let metaLen := decodeLE ((footer.drop 8).take 8)
      let metaOffset := decodeLE ((footer.drop 16).take 8)
      if footer.take 8 ≠ magicBytes then .error .corrupt
      else if metaOffset ≥ footerStart ∨ metaLen = 0 ∨ metaLen > 1024 then
        .error .corrupt
      else
        match readExact file metaOffset metaLen with
        | none => .error .io
        | some metaBuf =>
          match decodeMeta metaBuf with
          | none => .error .corrupt
          | some (numEntries, dataSz, indexSz) =>
            if numEntries = 0 ∨ dataSz = 0 ∨ indexSz = 0 then .error .corrupt
            else
              let indexStart := dataSz
              let indexEnd := metaOffset
              if indexEnd ≤ indexStart ∨ indexEnd > metaOffset then
                .error .corrupt
              else
                scanIndex file key dataSz indexEnd (file.length + 1) indexStart

/-- `SSTable::verify_metadata`, run by `SSTable::open`: footer bounds and
magic checks, then a read (not a decode) of the metadata block. All
`Error::custom` exits are the spec's `Corrupt` kind. -/
def sstOpenVerify (file : Bytes) : Except Err Unit :=
  if file.length < 24 then .error .corrupt
  else
    let footerStart := file.length - 24
    match readExact file footerStart 24 with
    | none => .error .io
    | some footer =>
      if footer.take 8 ≠ magicBytes then .error .corrupt
      else
        let metaLen := decodeLE ((footer.drop 8).take 8)
        if metaLen = 0 ∨ metaLen > 1024 then .error .corrupt
        else
          let metaOffset := decodeLE ((footer.drop 16).take 8)
          if metaOffset ≥ file.length - 24 then .error .corrupt
          else if metaOffset + metaLen > file.length - 24 then .error .corrupt
          else
            match readExact file metaOffset metaLen with
            | none => .error .io
            | some _ => .ok ()

end RocksClone

namespace RocksClone

/-! ### Bookkeeping lemmas for the SSTable layout -/

@[simp] theorem dataBlock_nil : dataBlock [] = [] := rfl

@[simp] theorem dataBlock_cons (e : Entry) (B : List Entry) :
    dataBlock (e :: B) = dataEntry e ++ dataBlock B := by
  simp [dataBlock]

@[simp] theorem dataBlock_append (B₁ B₂ : List Entry) :
    dataBlock (B₁ ++ B₂) = dataBlock B₁ ++ dataBlock B₂ := by
  simp [dataBlock]

@[simp] theorem dataSize_nil : dataSize [] = 0 := rfl

@[simp] theorem dataSize_cons (e : Entry) (B : List Entry) :
    dataSize (e :: B) = entrySize e + dataSize B := by
  simp [dataSize]

@[simp] theorem dataSize_append (B₁ B₂ : List Entry) :
    dataSize (B₁ ++ B₂) = dataSize B₁ + dataSize B₂ := by
  simp [dataSize]

theorem dataEntry_length (e : Entry) : (dataEntry e).length = entrySize e := by
  obtain ⟨k, ov⟩ := e
  cases ov <;> simp [dataEntry, entrySize] <;> omega

theorem dataBlock_length (B : List Entry) :
    (dataBlock B).length = dataSize B := by
  induction B with
  | nil => rfl
  | cons e rest ih => simp [dataEntry_length, ih]

theorem entrySize_lower (e : Entry) : 16 + e.1.length ≤ entrySize e := by
  obtain ⟨k, ov⟩ := e
  cases ov <;> simp [entrySize] <;> omega

/-- Byte length of the index block of a batch (16 bytes of headers plus the
key, per entry); independent of the offsets stored. -/
def ixSize (B : List Entry) : Nat := (B.map (fun e => 16 + e.1.length)).sum

@[simp] theorem ixSize_nil : ixSize [] = 0 := rfl

@[simp] theorem ixSize_cons (e : Entry) (B : List Entry) :
    ixSize (e :: B) = 16 + e.1.length + ixSize B := by
  simp [ixSize]

@[simp] theorem ixSize_append (B₁ B₂ : List Entry) :
    ixSize (B₁ ++ B₂) = ixSize B₁ + ixSize B₂ := by
  simp [ixSize]

theorem offsetsFrom_append (B₁ B₂ : List Entry) :
    ∀ off, offsetsFrom off (B₁ ++ B₂) =
      offsetsFrom off B₁ ++ offsetsFrom (off + dataSize B₁) B₂ := by
  induction B₁ with
  | nil => simp [offsetsFrom]
  | cons e rest ih =>
      intro off
      have h := ih (off + entrySize e)
      simp only [List.cons_append, offsetsFrom, List.append_eq, h,
        dataSize_cons, ← Nat.add_assoc]

/-- The index-block bytes of a batch whose first data entry sits at `off`. -/
def ixBlockFrom (off : Nat) (B : List Entry) : Bytes :=
  ((offsetsFrom off B).map indexEntry).flatten

theorem indexBlock_eq (B : List Entry) : indexBlock B = ixBlockFrom 0 B := rfl

@[simp] theorem ixBlockFrom_nil (off : Nat) : ixBlockFrom off [] = [] := rfl

@[simp] theorem ixBlockFrom_cons (off : Nat) (e : Entry) (B : List Entry) :
    ixBlockFrom off (e :: B) =
      indexEntry (e.1, off) ++ ixBlockFrom (off + entrySize e) B := by
  simp [ixBlockFrom, offsetsFrom]

theorem ixBlockFrom_append (off : Nat) (B₁ B₂ : List Entry) :
    ixBlockFrom off (B₁ ++ B₂) =
      ixBlockFrom off B₁ ++ ixBlockFrom (off + dataSize B₁) B₂ := by
  simp [ixBlockFrom, offsetsFrom_append]

theorem indexEntry_length (k : Bytes) (off : Nat) :
    (indexEntry (k, off)).length = 16 + k.length := by
  simp [indexEntry]
  omega

theorem ixBlockFrom_length (B : List Entry) :
    ∀ off, (ixBlockFrom off B).length = ixSize B := by
  induction B with
  | nil => simp
  | cons e rest ih => intro off; simp [indexEntry_length, ih]

theorem indexBlock_length (B : List Entry) :
    (indexBlock B).length = ixSize B := by
  rw [indexBlock_eq, ixBlockFrom_length]

@[simp] theorem metaBytes_length (B : List Entry) :
    (metaBytes B).length = 24 := by
  simp [metaBytes]

@[simp] theorem sstFooter_length (B : List Entry) :
    (sstFooter B).length = 24 := by
  simp [sstFooter, magicBytes]

theorem writeBatch_length (B : List Entry) :
    (writeBatch B).length = dataSize B + ixSize B + 48 := by
  simp [writeBatch, dataBlock_length, indexBlock_length]
  omega

theorem length_le_dataSize (B : List Entry) : B.length ≤ dataSize B := by
  induction B with
  | nil => simp
  | cons e rest ih =>
      have := entrySize_lower e
      simp only [List.length_cons, dataSize_cons]
      omega

/-- First-match lookup over a batch in index order, as collapsed by
`SSTable::get`: a `Present` hit yields `some v`, a tombstone hit or a miss
yields `none`. -/
def flatLookup : List Entry → Bytes → Option Bytes
  | [], _ => none
  | e :: rest, k => if e.1 = k then e.2 else flatLookup rest k

/-! ### Reading a data entry back -/

theorem readExact_shift (a b : Bytes) (t n : Nat) :
    readExact (a ++ b) (a.length + t) n = readExact b t n := by
  unfold readExact
  rw [List.length_append, List.drop_append]
  by_cases h : t + n ≤ b.length
  · rw [if_pos (by omega), if_pos h]
  · rw [if_neg (by omega), if_neg h]

theorem readDataEntry_at (a rest : Bytes) (e : Entry)
    (hk : e.1.length < 2^64)
    (hv : ∀ v, e.2 = some v → v.length < U64MAX) :
    readDataEntry (a ++ (dataEntry e ++ rest)) a.length = .ok e.2 := by
  obtain ⟨k, ov⟩ := e
  cases ov with
  | some v =>
      have hv' : v.length < U64MAX := hv v rfl
      have h1 : readExact (a ++ (dataEntry (k, some v) ++ rest)) a.length 8 =
          some (u64le k.length) :=
        readExact_eq (a := a) (c := u64le k.length)
          (d := k ++ (u64le v.length ++ (v ++ rest)))
          (by simp [dataEntry]) rfl rfl
      have h2 : readExact (a ++ (dataEntry (k, some v) ++ rest))
          (a.length + 8) k.length = some k :=
        readExact_eq (a := a ++ u64le k.length) (c := k)
          (d := u64le v.length ++ (v ++ rest))
          (by simp [dataEntry]) (by simp) rfl
      have h3 : readExact (a ++ (dataEntry (k, some v) ++ rest))
          (a.length + 8 + k.length) 8 = some (u64le v.length) :=
        readExact_eq (a := a ++ u64le k.length ++ k) (c := u64le v.length)
          (d := v ++ rest)
          (by simp [dataEntry]) (by simp; omega) rfl
      have h4 : readExact (a ++ (dataEntry (k, some v) ++ rest))
          (a.length + 8 + k.length + 8) v.length = some v :=
        readExact_eq (a := a ++ u64le k.length ++ k ++ u64le v.length)
          (c := v) (d := rest)
          (by simp [dataEntry]) (by simp; omega) rfl
      have hvne : v.length ≠ U64MAX := Nat.ne_of_lt hv'
      simp only [readDataEntry, h1, decodeLE_u64le_of_lt hk, h2, h3,
        decodeLE_u64le_of_lt (by unfold U64MAX at hv'; omega : v.length < 2^64),
        if_neg hvne, h4]
  | none =>
      have h1 : readExact (a ++ (dataEntry (k, none) ++ rest)) a.length 8 =
          some (u64le k.length) :=
        readExact_eq (a := a) (c := u64le k.length)
          (d := k ++ (u64le U64MAX ++ rest))
          (by simp [dataEntry]) rfl rfl
      have h2 : readExact (a ++ (dataEntry (k, none) ++ rest))
          (a.length + 8) k.length = some k :=
        readExact_eq (a := a ++ u64le k.length) (c := k)
          (d := u64le U64MAX ++ rest)
          (by simp [dataEntry]) (by simp) rfl
      have h3 : readExact (a ++ (dataEntry (k, none) ++ rest))
          (a.length + 8 + k.length) 8 = some (u64le U64MAX) :=
        readExact_eq (a := a ++ u64le k.length ++ k) (c := u64le U64MAX)
          (d := rest)
          (by simp [dataEntry]) (by simp; omega) rfl
      simp only [readDataEntry, h1, decodeLE_u64le_of_lt hk, h2, h3,
        decodeLE_u64le_of_lt (by unfold U64MAX; omega : U64MAX < 2^64),
        if_pos rfl, if_true, eq_self_iff_true]

theorem readDataEntry_writeBatch (B₁ : List Entry) (e : Entry)
    (B₂ : List Entry)
    (hsz : (writeBatch (B₁ ++ e :: B₂)).length < 2^64) :
    readDataEntry (writeBatch (B₁ ++ e :: B₂)) (dataSize B₁) = .ok e.2 := by
  have hlen := writeBatch_length (B₁ ++ e :: B₂)
  have hes := entrySize_lower e
  have hsplit : writeBatch (B₁ ++ e :: B₂) =
      dataBlock B₁ ++ (dataEntry e ++
        (dataBlock B₂ ++ (indexBlock (B₁ ++ e :: B₂) ++
          (metaBytes (B₁ ++ e :: B₂) ++ sstFooter (B₁ ++ e :: B₂))))) := by
    simp [writeBatch]
  have hk : e.1.length < 2^64 := by
    simp only [dataSize_append, dataSize_cons] at hlen
    omega
  have hv : ∀ v, e.2 = some v → v.length < U64MAX := by
    intro v hev
    have : entrySize e = 8 + e.1.length + 8 + v.length := by
      obtain ⟨k, ov⟩ := e
      simp only at hev
      subst hev
      rfl
    simp only [dataSize_append, dataSize_cons] at hlen
    unfold U64MAX
    omega
  rw [hsplit, ← dataBlock_length B₁]
  exact readDataEntry_at _ _ e hk hv

/-! ### The index scan on a well-formed file -/

theorem scanIndex_stop (file key : Bytes) (dataEnd indexEnd fuel pos : Nat)
    (h : ¬ pos < indexEnd) :
    scanIndex file key dataEnd indexEnd (fuel + 1) pos = .ok none := by
  simp [scanIndex, h]

theorem scanIndex_step (file key : Bytes) (dataEnd indexEnd fuel pos : Nat)
    (a d k : Bytes) (off : Nat)
    (hlt : pos < indexEnd)
    (hfile : file = a ++ (indexEntry (k, off) ++ d))
    (hpos : pos = a.length)
    (hk : k.length < 2^64) (hoff : off < 2^64) :
    scanIndex file key dataEnd indexEnd (fuel + 1) pos =
      if k = key then
        (if dataEnd ≤ off then .error .corrupt else readDataEntry file off)
      else scanIndex file key dataEnd indexEnd fuel
        (pos + 8 + k.length + 8) := by
  have h1 : readExact file pos 8 = some (u64le k.length) :=
    readExact_eq (a := a) (c := u64le k.length) (d := k ++ (u64le off ++ d))
      (by rw [hfile]; simp [indexEntry]) hpos rfl
  have h2 : readExact file (pos + 8) k.length = some k :=
    readExact_eq (a := a ++ u64le k.length) (c := k) (d := u64le off ++ d)
      (by rw [hfile]; simp [indexEntry]) (by simp [hpos]) rfl
  have h3 : readExact file (pos + 8 + k.length) 8 = some (u64le off) :=
    readExact_eq (a := a ++ u64le k.length ++ k) (c := u64le off) (d := d)
      (by rw [hfile]; simp [indexEntry]) (by simp [hpos]; omega) rfl
  simp only [scanIndex, if_pos hlt, h1, decodeLE_u64le_of_lt hk, h2, h3,
    decodeLE_u64le_of_lt hoff]

theorem scanIndex_writeBatch (B : List Entry) (key : Bytes)
    (hsz : (writeBatch B).length < 2^64) :
    ∀ B₂ B₁ fuel, B = B₁ ++ B₂ → B₂.length < fuel →
    scanIndex (writeBatch B) key (dataSize B) (dataSize B + ixSize B) fuel
      (dataSize B + ixSize B₁) = .ok (flatLookup B₂ key) := by
  intro B₂
  induction B₂ with
  | nil =>
      intro B₁ fuel hB hfuel
      cases fuel with
      | zero => omega
      | succ f =>
          have hix : ixSize B₁ = ixSize B := by rw [hB, List.append_nil]
          rw [scanIndex_stop _ _ _ _ _ _ (by omega)]
          rfl
  | cons e rest ih =>
      intro B₁ fuel hB hfuel
      cases fuel with
      | zero => omega
      | succ f =>
        have hfuel' : rest.length < f := by
          simp only [List.length_cons] at hfuel
          omega
        have hix : ixSize B = ixSize B₁ + (16 + e.1.length) + ixSize rest := by
          rw [hB]; simp; omega
        have hds : dataSize B = dataSize B₁ + entrySize e + dataSize rest := by
          rw [hB]; simp; omega
        have hes := entrySize_lower e
        have hlen := writeBatch_length B
        have hIB : indexBlock B = ixBlockFrom 0 B₁ ++
            (indexEntry (e.1, dataSize B₁) ++
              ixBlockFrom (dataSize B₁ + entrySize e) rest) := by
          rw [indexBlock_eq, hB, ixBlockFrom_append, ixBlockFrom_cons]
          simp
        have hfile : writeBatch B =
            (dataBlock B ++ ixBlockFrom 0 B₁) ++
              (indexEntry (e.1, dataSize B₁) ++
                (ixBlockFrom (dataSize B₁ + entrySize e) rest ++
                  (metaBytes B ++ sstFooter B))) := by
          rw [writeBatch, hIB]
          simp [List.append_assoc]
        have hpos : dataSize B + ixSize B₁ =
            (dataBlock B ++ ixBlockFrom 0 B₁).length := by
          simp [dataBlock_length, ixBlockFrom_length]
        have hk64 : e.1.length < 2^64 := by omega
        have hoff64 : dataSize B₁ < 2^64 := by omega
        rw [scanIndex_step (writeBatch B) key (dataSize B)
              (dataSize B + ixSize B) f (dataSize B + ixSize B₁)
              _ _ _ _ (by omega) hfile hpos hk64 hoff64]
        by_cases hke : e.1 = key
        · rw [if_pos hke, if_neg (by omega : ¬ dataSize B ≤ dataSize B₁)]
          rw [hB, readDataEntry_writeBatch B₁ e rest (hB ▸ hsz)]
          simp [flatLookup, hke]
        · rw [if_neg hke]
          have hpos' : dataSize B + ixSize B₁ + 8 + e.1.length + 8 =
              dataSize B + ixSize (B₁ ++ [e]) := by simp; omega
          rw [hpos', ih (B₁ ++ [e]) f (by rw [hB]; simp) hfuel']
          simp [flatLookup, hke]

/-! ### Characterisation of `SSTable::get` on a file written by
`write_batch` -/

theorem dataSize_pos (B : List Entry) (hB : B ≠ []) : 16 ≤ dataSize B := by
  cases B with
  | nil => exact absurd rfl hB
  | cons e rest =>
      have := entrySize_lower e
      simp only [dataSize_cons]
      omega

theorem ixSize_pos (B : List Entry) (hB : B ≠ []) : 16 ≤ ixSize B := by
  cases B with
  | nil => exact absurd rfl hB
  | cons e rest =>
      simp only [ixSize_cons]
      omega

theorem metaStart_eq (B : List Entry) :
    metaStart B = dataSize B + ixSize B := by
  rw [metaStart, dataBlock_length, indexBlock_length]

theorem sstGet_writeBatch (B : List Entry) (key : Bytes) (hB : B ≠ [])
    (hsz : (writeBatch B).length < 2^64) :
    sstGet (writeBatch B) key = .ok (flatLookup B key) := by
  have hlen := writeBatch_length B
  have hds := dataSize_pos B hB
  have his := ixSize_pos B hB
  have hms : metaStart B = dataSize B + ixSize B := metaStart_eq B
  have hBlen : B.length ≠ 0 := by
    cases B with
    | nil => exact absurd rfl hB
    | cons e rest => simp
  have hBle := length_le_dataSize B
  have hfr : readExact (writeBatch B) ((writeBatch B).length - 24) 24 =
      some (sstFooter B) := by
    apply readExact_eq (a := dataBlock B ++ indexBlock B ++ metaBytes B)
      (c := sstFooter B) (d := [])
    · rw [writeBatch]
      simp [List.append_assoc]
    · simp only [List.length_append, dataBlock_length, indexBlock_length,
        metaBytes_length, hlen]
      omega
    · simp
  have hm8 : magicBytes.length = 8 := rfl
  have hfoot : sstFooter B = magicBytes ++ (u64le 24 ++ u64le (metaStart B)) := by
    rw [sstFooter, metaBytes_length, List.append_assoc]
  have hf8 : (sstFooter B).take 8 = magicBytes := by
    rw [hfoot]
    exact List.take_left' hm8
  have hfl : decodeLE (((sstFooter B).drop 8).take 8) = 24 := by
    rw [hfoot, List.drop_left' hm8, List.take_left' (u64le_length 24)]
    exact decodeLE_u64le_of_lt (by norm_num)
  have hfo : decodeLE (((sstFooter B).drop 16).take 8) = metaStart B := by
    have h16 : (magicBytes ++ u64le 24).length = 16 := by simp [hm8]
    rw [hfoot, ← List.append_assoc, List.drop_left' h16,
        List.take_of_length_le (by simp)]
    exact decodeLE_u64le_of_lt (by omega)
  have hmr : readExact (writeBatch B) (metaStart B) 24 = some (metaBytes B) := by
    apply readExact_eq (a := dataBlock B ++ indexBlock B) (c := metaBytes B)
      (d := sstFooter B)
    · rw [writeBatch]
      simp [List.append_assoc]
    · simp [metaStart]
    · simp
  have his' : (dataBlock B).length + (indexBlock B).length - dataSize B =
      ixSize B := by
    rw [dataBlock_length, indexBlock_length]
    omega
  have hmB : metaBytes B =
      u64be B.length ++ (u64be (dataSize B) ++ u64be (ixSize B)) := by
    rw [metaBytes, his', List.append_assoc]
  have hmeta : decodeMeta (metaBytes B) =
      some (B.length, dataSize B, ixSize B) := by
    have h16 : (u64be B.length ++ u64be (dataSize B)).length = 16 := by simp
    rw [decodeMeta, if_neg (by simp)]
    rw [hmB, List.take_left' (u64be_length B.length),
        List.drop_left' (u64be_length B.length),
        List.take_left' (u64be_length (dataSize B)),
        ← List.append_assoc, List.drop_left' h16,
        List.take_of_length_le (by simp)]
    rw [decodeBE_u64be_of_lt (by omega), decodeBE_u64be_of_lt (by omega),
        decodeBE_u64be_of_lt (by omega)]
  rw [sstGet]
  rw [if_neg (by omega)]
  simp only [hfr, hf8, hfl, hfo, hmr, hmeta]
  rw [if_neg (by simp)]
  rw [if_neg (by omega : ¬ (metaStart B ≥ (writeBatch B).length - 24 ∨
        24 = 0 ∨ 24 > 1024))]
  rw [if_neg (by omega : ¬ (B.length = 0 ∨ dataSize B = 0 ∨ ixSize B = 0))]
  rw [if_neg (by omega : ¬ (metaStart B ≤ dataSize B ∨
        metaStart B > metaStart B))]
  have hscan := scanIndex_writeBatch B key hsz B [] ((writeBatch B).length + 1)
    (by simp) (by omega)
  simp only [ixSize_nil, Nat.add_zero] at hscan
  rw [hms]
  exact hscan

/-! ### Characterisation of `SSTable::open` footer verification -/

/-- The last 24 bytes of a file (the footer read by `verify_metadata`). -/
def footerOf (file : Bytes) : Bytes := (file.drop (file.length - 24)).take 24

/-- The `meta_len` field parsed from a file's footer. -/
def metaLenOf (file : Bytes) : Nat := decodeLE (((footerOf file).drop 8).take 8)

/-- The `meta_offset` field parsed from a file's footer. -/
def metaOffsetOf (file : Bytes) : Nat :=
  decodeLE (((footerOf file).drop 16).take 8)

/-- Stated from the spec sentence for comparison with the code: the
conditions under which `open` is claimed to fail with `Corrupt` (all except
the claim's metadata-decode condition, which the code does not check). -/
def corruptCond (file : Bytes) : Prop :=
  file.length < 24 ∨ (footerOf file).take 8 ≠ magicBytes ∨
    metaLenOf file = 0 ∨ metaLenOf file > 1024 ∨
    metaOffsetOf file + metaLenOf file > file.length - 24

theorem corrupt_end (file : Bytes) (hc : corruptCond file) :
    ((.error .corrupt : Except Err Unit) = .ok () ↔ ¬ corruptCond file) ∧
    ((.error .corrupt : Except Err Unit) = .error .corrupt ↔
      corruptCond file) := by
  refine ⟨⟨fun h => Except.noConfusion h, fun h => absurd hc h⟩, ?_⟩
  simp [hc]

theorem ok_end (file : Bytes) (hc : ¬ corruptCond file) :
    ((.ok () : Except Err Unit) = .ok () ↔ ¬ corruptCond file) ∧
    ((.ok () : Except Err Unit) = .error .corrupt ↔ corruptCond file) := by
  constructor
  · simp [hc]
  · constructor
    · intro h; exact Except.noConfusion h
    · intro h; exact absurd h hc

theorem sstOpenVerify_char (file : Bytes) :
    (sstOpenVerify file = .ok () ↔ ¬ corruptCond file) ∧
    (sstOpenVerify file = .error .corrupt ↔ corruptCond file) := by
  by_cases h24 : file.length < 24
  · rw [sstOpenVerify, if_pos h24]
    exact corrupt_end file (Or.inl h24)
  · have hfr : readExact file (file.length - 24) 24 = some (footerOf file) := by
      rw [readExact, if_pos (by omega)]
      rfl
    rw [sstOpenVerify, if_neg h24]
    simp only [hfr]
    by_cases c1 : (footerOf file).take 8 = magicBytes
    · rw [if_neg (by simp [c1])]
      by_cases c2 : decodeLE (((footerOf file).drop 8).take 8) = 0 ∨
          decodeLE (((footerOf file).drop 8).take 8) > 1024
      · rw [if_pos c2]
        refine corrupt_end file ?_
        rcases c2 with h | h
        · exact Or.inr (Or.inr (Or.inl h))
        · exact Or.inr (Or.inr (Or.inr (Or.inl h)))
      · rw [if_neg c2]
        by_cases c3 : decodeLE (((footerOf file).drop 16).take 8) ≥
            file.length - 24
        · rw [if_pos c3]
          refine corrupt_end file ?_
          refine Or.inr (Or.inr (Or.inr (Or.inr ?_)))
          show metaOffsetOf file + metaLenOf file > file.length - 24
          have h1 : metaLenOf file ≠ 0 := fun h => c2 (Or.inl h)
          have h2 : metaOffsetOf file ≥ file.length - 24 := c3
          omega
        · rw [if_neg c3]
          by_cases c4 : decodeLE (((footerOf file).drop 16).take 8) +
              decodeLE (((footerOf file).drop 8).take 8) > file.length - 24
          · rw [if_pos c4]
            exact corrupt_end file (Or.inr (Or.inr (Or.inr (Or.inr c4))))
          · rw [if_neg c4]
            have hmr : readExact file
                (decodeLE (((footerOf file).drop 16).take 8))
                (decodeLE (((footerOf file).drop 8).take 8)) =
                some ((file.drop (decodeLE (((footerOf file).drop 16).take 8))).take
                  (decodeLE (((footerOf file).drop 8).take 8))) := by
              rw [readExact, if_pos (by omega)]
            simp only [hmr]
            have hnc : ¬ corruptCond file := by
              intro hc
              rcases hc with h | h | h | h | h
              · exact h24 h
              · exact h c1
              · exact c2 (Or.inl h)
              · exact c2 (Or.inr h)
              · exact c4 h
            simp [hnc]
    · rw [if_pos c1]
      exact corrupt_end file (Or.inr (Or.inl c1))

/-! ### Files produced by `write_batch` verify cleanly -/

theorem footerOf_writeBatch (B : List Entry) :
    footerOf (writeBatch B) = sstFooter B := by
  have ha : (dataBlock B ++ indexBlock B ++ metaBytes B).length =
      (dataBlock B ++ indexBlock B ++ metaBytes B ++ sstFooter B).length
        - 24 := by
    simp only [List.length_append, sstFooter_length]
    omega
  rw [footerOf, writeBatch, List.drop_left' ha,
      List.take_of_length_le (by simp)]

theorem sstFooter_take8 (B : List Entry) :
    (sstFooter B).take 8 = magicBytes := by
  have hm8 : magicBytes.length = 8 := rfl
  rw [sstFooter, List.append_assoc]
  exact List.take_left' hm8

theorem sstFooter_metaLen (B : List Entry) :
    decodeLE (((sstFooter B).drop 8).take 8) = 24 := by
  have hm8 : magicBytes.length = 8 := rfl
  rw [sstFooter, metaBytes_length, List.append_assoc,
      List.drop_left' hm8, List.take_left' (u64le_length 24)]
  exact decodeLE_u64le_of_lt (by norm_num)

theorem sstFooter_metaOffset (B : List Entry) (h : metaStart B < 2^64) :
    decodeLE (((sstFooter B).drop 16).take 8) = metaStart B := by
  have hm8 : magicBytes.length = 8 := rfl
  have h16 : (magicBytes ++ u64le (metaBytes B).length).length = 16 := by
    simp [hm8]
  rw [sstFooter, List.drop_left' h16, List.take_of_length_le (by simp)]
  exact decodeLE_u64le_of_lt h

theorem sstOpenVerify_writeBatch (B : List Entry)
    (hsz : (writeBatch B).length < 2^64) :
    sstOpenVerify (writeBatch B) = .ok () := by
  have hlen := writeBatch_length B
  have hfB := footerOf_writeBatch B
  have hml : metaLenOf (writeBatch B) = 24 := by
    rw [metaLenOf, hfB]
    exact sstFooter_metaLen B
  have hmo : metaOffsetOf (writeBatch B) = metaStart B := by
    rw [metaOffsetOf, hfB]
    exact sstFooter_metaOffset B (by rw [metaStart_eq]; omega)
  refine (sstOpenVerify_char (writeBatch B)).1.mpr ?_
  intro hc
  rcases hc with h | h | h | h | h
  · omega
  · rw [hfB] at h
    exact h (sstFooter_take8 B)
  · rw [hml] at h
    omega
  · rw [hml] at h
    omega
  · rw [hml, hmo, metaStart_eq] at h
    omega

/-! ### Lexicographic byte order (Rust's `Ord` on `&[u8]` / `Vec<u8>`) -/

/-- Strict lexicographic order on byte strings, as Rust compares byte
slices (and as `BTreeMap<Vec<u8>, _>` orders its keys). -/
def lexLt : Bytes → Bytes → Bool
  | [], [] => false
  | [], _ :: _ => true
  | _ :: _, [] => false
  | a :: as, b :: bs => if a < b then true else if b < a then false
      else lexLt as bs

theorem lexLt_irrefl (k : Bytes) : lexLt k k = false := by
  induction k with
  | nil => rfl
  | cons a rest ih => simp [lexLt, ih]

/-- Batch keys in strictly ascending order (unique by construction). -/
def keysAscending (B : List Entry) : Prop :=
  B.Pairwise (fun a b => lexLt a.1 b.1 = true)

theorem flatLookup_of_mem {B : List Entry} {k : Bytes} {ov : Option Bytes}
    (hasc : keysAscending B) (hmem : (k, ov) ∈ B) :
    flatLookup B k = ov := by
  induction B with
  | nil => cases hmem
  | cons e rest ih =>
      rw [keysAscending, List.pairwise_cons] at hasc
      rcases List.mem_cons.mp hmem with h | h
      · subst h
        simp [flatLookup]
      · by_cases hek : e.1 = k
        · exfalso
          have := hasc.1 (k, ov) h
          rw [hek] at this
          rw [lexLt_irrefl] at this
          exact Bool.false_ne_true this
        · rw [flatLookup, if_neg hek]
          exact ih hasc.2 h

/-! ## MemTable (`storage/memtable.rs`) -/

/-- `Value`: what the memtable stores for a key. -/
inductive Value where
  | value (v : Bytes)
  | tombstone
deriving DecidableEq, Repr

/-- `MemTable`: a `BTreeMap<Vec<u8>, Value>` modelled as an association
list kept sorted by `lexLt` (the map iteration order), plus the tracked
approximate `size`. -/
structure MemTable where
  map : List (Bytes × Value)
  size : Nat
deriving DecidableEq, Repr

/-- `BTreeMap::insert`: returns the displaced old value (if any) and the
updated sorted association list. -/
def mapInsert (k : Bytes) (v : Value) :
    List (Bytes × Value) → Option Value × List (Bytes × Value)
  | [] => (none, [(k, v)])
  | (k', v') :: rest =>
    if lexLt k k' then (none, (k, v) :: (k', v') :: rest)
    else if k = k' then (some v', (k, v) :: rest)
    else
      let r := mapInsert k v rest
      (r.1, (k', v') :: r.2)

/-- `BTreeMap::get`: first-match association lookup. -/
def mapGet (k : Bytes) : List (Bytes × Value) → Option Value
  | [] => none
  | (k', v') :: rest => if k' = k then some v' else mapGet k rest

/-- `MemTable::new`. -/
def MemTable.new : MemTable := ⟨[], 0⟩

/-- `MemTable::put`: install `Value::Value(value)`, adjusting `size` by the
source's three cases on the displaced entry. -/
def MemTable.put (mt : MemTable) (key value : Bytes) : MemTable :=
  let r := mapInsert key (.value value) mt.map
  { map := r.2
    size :=
      match r.1 with
      | some (.value oldVal) => mt.size - oldVal.length + value.length
      | some .tombstone => mt.size - 1 + value.length
      | none => mt.size + key.length + value.length }

/-- `MemTable::delete`: install `Value::Tombstone`, adjusting `size` by the
source's three cases on the displaced entry. -/
def MemTable.delete (mt : MemTable) (key : Bytes) : MemTable :=
  let r := mapInsert key .tombstone mt.map
  { map := r.2
    size :=
      match r.1 with
      | some (.value oldVal) => mt.size - oldVal.length + 1
      | some .tombstone => mt.size
      | none => mt.size + key.length + 1 }

/-- `MemTable::get`. -/
def MemTable.get (mt : MemTable) (key : Bytes) : Option Value :=
  mapGet key mt.map

/-- `MemTable::is_empty`. -/
def MemTable.isEmpty (mt : MemTable) : Bool := mt.map.isEmpty

/-- `MemTable::clear`. -/
def MemTable.clear : MemTable := ⟨[], 0⟩

/-- The memtable's iteration materialised for a flush: `Value(v)` becomes
`Some(v)` and `Tombstone` becomes `None`, in map (key) order. -/
def MemTable.entries (mt : MemTable) : List Entry :=
  mt.map.map fun kv =>
    (kv.1, match kv.2 with | .value v => some v | .tombstone => none)

/-- The byte weight an entry contributes to `size()`: value length for a
`Present` entry, 1 for a tombstone. -/
def valueWeight : Value → Nat
  | .value v => v.length
  | .tombstone => 1

/-- The specified size formula: sum over entries of key length plus
value-length-or-1. -/
def entriesSize (m : List (Bytes × Value)) : Nat :=
  (m.map fun kv => kv.1.length + valueWeight kv.2).sum

@[simp] theorem entriesSize_nil : entriesSize [] = 0 := rfl

@[simp] theorem entriesSize_cons (e : Bytes × Value)
    (m : List (Bytes × Value)) :
    entriesSize (e :: m) = e.1.length + valueWeight e.2 + entriesSize m := by
  simp only [entriesSize, List.map_cons, List.sum_cons]

theorem mapInsert_size_none (k : Bytes) (v : Value) :
    ∀ m : List (Bytes × Value), (mapInsert k v m).1 = none →
      entriesSize (mapInsert k v m).2 =
        entriesSize m + k.length + valueWeight v := by
  intro m
  induction m with
  | nil =>
      intro _
      simp [mapInsert]
  | cons e rest ih =>
      obtain ⟨k', v'⟩ := e
      by_cases h1 : lexLt k k'
      · rw [mapInsert, if_pos h1]
        intro _
        simp <;> omega
      · by_cases h2 : k = k'
        · rw [mapInsert, if_neg (by simp [h1]), if_pos h2]
          intro hw
          exact absurd hw (by simp)
        · rw [mapInsert, if_neg (by simp [h1]), if_neg h2]
          intro hw
          simp only at hw
          have := ih hw
          simp <;> omega

theorem mapInsert_size_some (k : Bytes) (v w : Value) :
    ∀ m : List (Bytes × Value), (mapInsert k v m).1 = some w →
      k.length + valueWeight w ≤ entriesSize m ∧
      entriesSize (mapInsert k v m).2 + valueWeight w =
        entriesSize m + valueWeight v := by
  intro m
  induction m with
  | nil =>
      intro hw
      exact absurd hw (by simp [mapInsert])
  | cons e rest ih =>
      obtain ⟨k', v'⟩ := e
      by_cases h1 : lexLt k k'
      · rw [mapInsert, if_pos h1]
        intro hw
        exact absurd hw (by simp)
      · by_cases h2 : k = k'
        · rw [mapInsert, if_neg (by simp [h1]), if_pos h2]
          intro hw
          simp only [Option.some.injEq] at hw
          subst hw h2
          constructor
          · simp
          · simp <;> omega
        · rw [mapInsert, if_neg (by simp [h1]), if_neg h2]
          intro hw
          simp only at hw
          have := ih hw
          constructor
          · simp <;> omega
          · simp <;> omega

theorem MemTable.put_size (mt : MemTable) (k v : Bytes)
    (h : mt.size = entriesSize mt.map) :
    (mt.put k v).size = entriesSize (mt.put k v).map := by
  cases hw : (mapInsert k (.value v) mt.map).1 with
  | none =>
      have h1 := mapInsert_size_none k (.value v) mt.map hw
      simp only [MemTable.put, hw]
      simp only [valueWeight] at h1
      omega
  | some w =>
      have h1 := mapInsert_size_some k (.value v) w mt.map hw
      cases w with
      | value oldVal =>
          simp only [MemTable.put, hw]
          simp only [valueWeight] at h1
          omega
      | tombstone =>
          simp only [MemTable.put, hw]
          simp only [valueWeight] at h1
          omega

theorem MemTable.delete_size (mt : MemTable) (k : Bytes)
    (h : mt.size = entriesSize mt.map) :
    (mt.delete k).size = entriesSize (mt.delete k).map := by
  cases hw : (mapInsert k .tombstone mt.map).1 with
  | none =>
      have h1 := mapInsert_size_none k .tombstone mt.map hw
      simp only [MemTable.delete, hw]
      simp only [valueWeight] at h1
      omega
  | some w =>
      have h1 := mapInsert_size_some k .tombstone w mt.map hw
      cases w with
      | value oldVal =>
          simp only [MemTable.delete, hw]
          simp only [valueWeight] at h1
          omega
      | tombstone =>
          simp only [MemTable.delete, hw]
          simp only [valueWeight] at h1
          omega

/-- An operation applied to the memtable in isolation. -/
inductive MtOp where
  | put (k v : Bytes)
  | del (k : Bytes)
  | clear

/-- Dispatch one memtable operation. -/
def MemTable.applyOp (mt : MemTable) : MtOp → MemTable
  | .put k v => mt.put k v
  | .del k => mt.delete k
  | .clear => MemTable.clear

/-- Run a sequence of operations on a fresh memtable. -/
def runMtOps (ops : List MtOp) : MemTable :=
  ops.foldl MemTable.applyOp MemTable.new

theorem foldl_size_invariant (ops : List MtOp) :
    ∀ mt : MemTable, mt.size = entriesSize mt.map →
      (ops.foldl MemTable.applyOp mt).size =
        entriesSize (ops.foldl MemTable.applyOp mt).map := by
  induction ops with
  | nil => intro mt h; exact h
  | cons op rest ih =>
      intro mt h
      rw [List.foldl_cons]
      apply ih
      cases op with
      | put k v => exact MemTable.put_size mt k v h
      | del k => exact MemTable.delete_size mt k h
      | clear => rfl

/-! ## Write-ahead log (`storage/wal.rs`) -/

/-- `WalOp`: an operation recorded in the WAL. -/
inductive WalOp where
  | put (key value : Bytes)
  | delete (key : Bytes)
deriving DecidableEq, Repr

/-- The loop of `WriteAheadLog::replay`, with the applied operations
collected in record order (`apply` is invoked on each in turn).  `decode`
abstracts `bincode::decode_from_slice` for `WalOp`.  Reading the 8-byte
length prefix fails with `UnexpectedEof` both at a clean record boundary
and when 1-7 trailing bytes remain, and the loop breaks returning success;
a failed payload read surfaces `Error::Io`; a failed decode surfaces
`Error::Deserialization`.  `fuel` bounds the number of iterations; every
call supplies more fuel than the loop can iterate (each record consumes at
least 8 bytes), so the `0` branch is unreachable. -/
def walReplayAux (decode : Bytes → Option WalOp) :
    Nat → Bytes → Except Err (List WalOp)
  | 0, _ => .error .io
  | fuel + 1, bytes =>
    if bytes.length < 8 then .ok []
    else
      let len := decodeLE (bytes.take 8)
      let rest := bytes.drop 8
      if rest.length < len then .error .io
      else
        match decode (rest.take len) with
        | none => .error .deserialization
        | some op =>
          match walReplayAux decode fuel (rest.drop len) with
          | .ok ops => .ok (op :: ops)
          | .error e => .error e

/-- `WriteAheadLog::replay` on the contents of an existing WAL file. -/
def walReplay (decode : Bytes → Option WalOp) (bytes : Bytes) :
    Except Err (List WalOp) :=
  walReplayAux decode (bytes.length + 1) bytes

/-- `WriteAheadLog::replay` on a path: a `NotFound` open error returns
success without applying anything. -/
def walReplayFile (decode : Bytes → Option WalOp) :
    Option Bytes → Except Err (List WalOp)
  | none => .ok []
  | some bytes => walReplay decode bytes

/-- The bytes `WriteAheadLog::append` writes for one serialized payload:
an 8-byte little-endian length prefix followed by the payload. -/
def encodeRecord (p : Bytes) : Bytes := u64le p.length ++ p

/-- A WAL file holding the given payloads in order. -/
def encodeRecords (ps : List Bytes) : Bytes := (ps.map encodeRecord).flatten

theorem walReplayAux_succ (decode : Bytes → Option WalOp) (fuel : Nat)
    (bytes : Bytes) :
    walReplayAux decode (fuel + 1) bytes =
      if bytes.length < 8 then .ok []
      else if (bytes.drop 8).length < decodeLE (bytes.take 8) then .error .io
      else
        match decode ((bytes.drop 8).take (decodeLE (bytes.take 8))) with
        | none => .error .deserialization
        | some op =>
          match walReplayAux decode fuel
              ((bytes.drop 8).drop (decodeLE (bytes.take 8))) with
          | .ok ops => .ok (op :: ops)
          | .error e => .error e := rfl

theorem walReplayAux_congr (decode : Bytes → Option WalOp) :
    ∀ f1 f2 bytes, bytes.length < f1 → bytes.length < f2 →
      walReplayAux decode f1 bytes = walReplayAux decode f2 bytes := by
  intro f1
  induction f1 with
  | zero => intro f2 bytes h1 h2; omega
  | succ a ih =>
      intro f2 bytes h1 h2
      cases f2 with
      | zero => omega
      | succ b =>
          rw [walReplayAux_succ, walReplayAux_succ]
          by_cases hb : bytes.length < 8
          · rw [if_pos hb, if_pos hb]
          · rw [if_neg hb, if_neg hb]
            by_cases hr : (bytes.drop 8).length < decodeLE (bytes.take 8)
            · rw [if_pos hr, if_pos hr]
            · rw [if_neg hr, if_neg hr]
              cases hd :
                  decode ((bytes.drop 8).take (decodeLE (bytes.take 8))) with
              | none => rfl
              | some op =>
                  have hL : ((bytes.drop 8).drop
                      (decodeLE (bytes.take 8))).length ≤
                      bytes.length - 8 := by
                    simp only [List.length_drop]
                    omega
                  rw [ih b ((bytes.drop 8).drop (decodeLE (bytes.take 8)))
                        (by omega) (by omega)]

theorem walReplay_record (decode : Bytes → Option WalOp) (p rest : Bytes)
    (hp : p.length < 2^64) :
    walReplay decode (encodeRecord p ++ rest) =
      match decode p with
      | none => .error .deserialization
      | some op =>
        match walReplay decode rest with
        | .ok ops => .ok (op :: ops)
        | .error e => .error e := by
  have hlen : (encodeRecord p ++ rest).length = 8 + p.length + rest.length := by
    simp [encodeRecord]
    omega
  have ht : (encodeRecord p ++ rest).take 8 = u64le p.length := by
    rw [encodeRecord, List.append_assoc]
    exact List.take_left' (u64le_length _)
  have hd : (encodeRecord p ++ rest).drop 8 = p ++ rest := by
    rw [encodeRecord, List.append_assoc]
    exact List.drop_left' (u64le_length _)
  rw [walReplay, walReplayAux_succ]
  rw [ht, hd, decodeLE_u64le_of_lt hp, if_neg (by omega),
      if_neg (by simp only [List.length_append]; omega),
      List.take_left, List.drop_left]
  cases hdec : decode p with
  | none => rfl
  | some op =>
      rw [walReplayAux_congr decode ((encodeRecord p ++ rest).length)
            (rest.length + 1) rest (by omega) (by omega)]
      rfl

theorem walReplay_short (decode : Bytes → Option WalOp) (bytes : Bytes)
    (h : bytes.length < 8) : walReplay decode bytes = .ok [] := by
  rw [walReplay, walReplayAux_succ, if_pos h]

theorem walReplay_truncated_tail (decode : Bytes → Option WalOp) (L : Nat)
    (t : Bytes) (hL : L < 2^64) (ht : t.length < L) :
    walReplay decode (u64le L ++ t) = .error .io := by
  have htake : (u64le L ++ t).take 8 = u64le L := List.take_left' (u64le_length _)
  have hdrop : (u64le L ++ t).drop 8 = t := List.drop_left' (u64le_length _)
  rw [walReplay, walReplayAux_succ, htake, hdrop, decodeLE_u64le_of_lt hL]
  rw [if_neg (by simp only [List.length_append, u64le_length]; omega),
      if_pos ht]

theorem walReplay_records (decode : Bytes → Option WalOp) :
    ∀ (ps : List Bytes) (ops : List WalOp) (suffix : Bytes),
      ps.map decode = ops.map some → (∀ p ∈ ps, p.length < 2^64) →
      walReplay decode (encodeRecords ps ++ suffix) =
        match walReplay decode suffix with
        | .ok tailOps => .ok (ops ++ tailOps)
        | .error e => .error e := by
  intro ps
  induction ps with
  | nil =>
      intro ops suffix hdec hlen
      have hops : ops = [] := by
        cases ops with
        | nil => rfl
        | cons _ _ => simp at hdec
      subst hops
      rw [show encodeRecords [] ++ suffix = suffix by simp [encodeRecords]]
      cases walReplay decode suffix <;> simp
  | cons p ps' ih =>
      intro ops suffix hdec hlen
      cases ops with
      | nil => simp at hdec
      | cons o ops' =>
          simp only [List.map_cons, List.cons.injEq] at hdec
          obtain ⟨ho, hrest⟩ := hdec
          have hsplit : encodeRecords (p :: ps') ++ suffix =
              encodeRecord p ++ (encodeRecords ps' ++ suffix) := by
            simp [encodeRecords]
          rw [hsplit, walReplay_record decode p _ (hlen p (by simp)), ho,
              ih ops' suffix hrest (fun q hq => hlen q (by simp [hq]))]
          cases walReplay decode suffix with
          | ok t => simp
          | error e => rfl

/-! ## Persistent store (`storage/mod.rs`, `lib.rs`)

The store's WAL file is modelled at the record level (`List WalOp`):
`append` appends one record, `clear` truncates, and replay-at-open folds
the records into a fresh memtable.  The byte-level framing of those
records is the separate `walReplay` model above. -/

/-- `PersistentStore`: memtable, WAL contents, SSTables (file id paired
with file bytes, oldest first), and `next_sstable_id`. The data directory
itself is represented by the `sstables`/`wal` fields. -/
structure StoreState where
  memtable : MemTable
  wal : List WalOp
  sstables : List (Nat × Bytes)
  nextId : Nat
deriving DecidableEq, Repr

/-- The store produced by opening an empty directory. -/
def freshStore : StoreState := ⟨MemTable.new, [], [], 0⟩

/-- The SSTable loop of `PersistentStore::get`, on the already-reversed
(newest-first) list: both arms of the `match` inside the `for` body
`return`, so only the first (newest) SSTable is ever consulted and any
error from it propagates. -/
def getFromSSTables (key : Bytes) :
    List (Nat × Bytes) → Except Err (Option Bytes)
  | [] => .ok none
  | sst :: _rest => sstGet sst.2 key

/-- `PersistentStore::get`: memtable first (`Value` → `Some`, `Tombstone`
→ `None`), then the SSTables newest first. -/
def StoreState.get (s : StoreState) (key : Bytes) :
    Except Err (Option Bytes) :=
  match s.memtable.get key with
  | some (.value v) => .ok (some v)
  | some .tombstone => .ok none
  | none => getFromSSTables key s.sstables.reverse

/-- `PersistentStore::flush_memtable`.  `writeOk` injects the possible
I/O failure of `SSTable::create`/`write_batch`: when it fails, the `?`
propagates before any store field is mutated, so the WAL (and everything
else) is left intact; only on success are the new SSTable appended, the
id incremented, the memtable cleared and then the WAL cleared. -/
def flushMemtable (writeOk : Bool) (s : StoreState) :
    StoreState × Option Err :=
  if s.memtable.isEmpty then (s, none)
  else if writeOk then
    ({ memtable := MemTable.clear
       wal := []
       sstables := s.sstables ++ [(s.nextId, writeBatch s.memtable.entries)]
       nextId := s.nextId + 1 }, none)
  else (s, some .io)

/-- `PersistentStore::should_flush`: any data at all triggers a flush. -/
def shouldFlush (s : StoreState) : Bool := !s.memtable.isEmpty

/-- `PersistentStore::put` (failure-free path): WAL append, memtable
insert, then the flush policy. -/
def StoreState.put (s : StoreState) (key value : Bytes) : StoreState :=
  let s1 := { s with wal := s.wal ++ [WalOp.put key value],
                     memtable := s.memtable.put key value }
  if shouldFlush s1 then (flushMemtable true s1).1 else s1

/-- `PersistentStore::delete` (failure-free path). -/
def StoreState.delete (s : StoreState) (key : Bytes) : StoreState :=
  let s1 := { s with wal := s.wal ++ [WalOp.delete key],
                     memtable := s.memtable.delete key }
  if shouldFlush s1 then (flushMemtable true s1).1 else s1

/-- `Store::flush` on the persistent store: flush the WAL writer (a
buffer no-op here), then seal if non-empty. -/
def StoreState.flush (s : StoreState) : StoreState :=
  if shouldFlush s then (flushMemtable true s).1 else s

/-- A data directory: the `<id>.sst` files found by the scan (in
directory order) and the contents of `wal.log` if that file exists. -/
structure DirState where
  ssts : List (Nat × Bytes)
  wal : Option (List WalOp)

/-- One step of the stable insertion sort used to model
`sort_by_key` on the SSTable ids. -/
def insertById (x : Nat × Bytes) :
    List (Nat × Bytes) → List (Nat × Bytes)
  | [] => [x]
  | y :: rest => if x.1 ≤ y.1 then x :: y :: rest else y :: insertById x rest

/-- `sstables.sort_by_key(id)`: oldest (smallest id) first. -/
def sortById (l : List (Nat × Bytes)) : List (Nat × Bytes) :=
  l.foldr insertById []

/-- The `SSTable::open` verification run on each scanned file; the first
failure aborts `PersistentStore::open`. -/
def verifyAll : List (Nat × Bytes) → Except Err Unit
  | [] => .ok ()
  | f :: rest =>
    match sstOpenVerify f.2 with
    | .error e => .error e
    | .ok _ => verifyAll rest

/-- `next_sstable_id = max over scanned ids of (id + 1)`, starting at 0. -/
def computeNextId (l : List (Nat × Bytes)) : Nat :=
  l.foldl (fun acc f => max acc (f.1 + 1)) 0

/-- The WAL replay at open: fold `Put`/`Delete` into a fresh memtable. -/
def replayOps (ops : List WalOp) : MemTable :=
  ops.foldl
    (fun m op =>
      match op with
      | .put k v => m.put k v
      | .delete k => m.delete k)
    MemTable.new

/-- `PersistentStore::open` on a directory: verify and collect the
`.sst` files, sort by id, replay `wal.log` if present, and keep the WAL
file (opened in append mode, so its records survive the open). -/
def storeOpen (d : DirState) : Except Err StoreState :=
  match verifyAll d.ssts with
  | .error e => .error e
  | .ok _ =>
      .ok { memtable := replayOps (d.wal.getD [])
            wal := d.wal.getD []
            sstables := sortById d.ssts
            nextId := computeNextId d.ssts }

/-- `DB::open`: a nonexistent directory (`dir = none`) is created when
`create_if_missing` holds (yielding an open of the fresh empty
directory) and is `DatabaseNotFound` otherwise. -/
def dbOpen (dir : Option DirState) (createIfMissing : Bool) :
    Except Err StoreState :=
  match dir with
  | none =>
      if createIfMissing then storeOpen ⟨[], none⟩
      else .error .databaseNotFound
  | some d => storeOpen d

/-- A store-level operation, including a clean close-and-reopen of the
same data directory. -/
inductive SOp where
  | put (k v : Bytes)
  | del (k : Bytes)
  | flush
  | reopen

/-- Run one store operation. -/
def runOp (s : StoreState) : SOp → Except Err StoreState
  | .put k v => .ok (s.put k v)
  | .del k => .ok (s.delete k)
  | .flush => .ok s.flush
  | .reopen => storeOpen ⟨s.sstables, some s.wal⟩

/-- Run a sequence of store operations. -/
def runOps : StoreState → List SOp → Except Err StoreState
  | s, [] => .ok s
  | s, op :: ops =>
    match runOp s op with
    | .ok t => runOps t ops
    | .error e => .error e

/-- Run a sequence of operations from a fresh store, then `get`. -/
def runGet (ops : List SOp) (key : Bytes) : Except Err (Option Bytes) :=
  match runOps freshStore ops with
  | .ok s => s.get key
  | .error e => .error e

/-! ### Reachable-state invariant and read-path lemmas -/

theorem verifyAll_ok (l : List (Nat × Bytes))
    (h : ∀ f ∈ l, sstOpenVerify f.2 = .ok ()) : verifyAll l = .ok () := by
  induction l with
  | nil => rfl
  | cons f rest ih =>
      rw [verifyAll, h f (by simp)]
      exact ih fun g hg => h g (by simp [hg])

theorem sortById_sorted (l : List (Nat × Bytes))
    (h : l.Pairwise (fun a b => a.1 < b.1)) : sortById l = l := by
  induction l with
  | nil => rfl
  | cons x rest ih =>
      rw [List.pairwise_cons] at h
      have hx := h.1
      rw [sortById, List.foldr_cons]
      rw [show rest.foldr insertById [] = sortById rest from rfl, ih h.2]
      cases rest with
      | nil => rfl
      | cons y rest' =>
          rw [insertById, if_pos (Nat.le_of_lt (hx y (by simp)))]

theorem foldl_max_le (l : List (Nat × Bytes)) :
    ∀ acc, acc ≤ l.foldl (fun a f => max a (f.1 + 1)) acc := by
  induction l with
  | nil => intro acc; exact Nat.le_refl acc
  | cons x rest ih =>
      intro acc
      calc acc ≤ max acc (x.1 + 1) := Nat.le_max_left _ _
        _ ≤ _ := ih _

theorem foldl_max_mem (l : List (Nat × Bytes)) :
    ∀ acc, ∀ f ∈ l, f.1 < l.foldl (fun a g => max a (g.1 + 1)) acc := by
  induction l with
  | nil => intro acc f hf; cases hf
  | cons x rest ih =>
      intro acc f hf
      rcases List.mem_cons.mp hf with h | h
      · subst h
        calc f.1 < f.1 + 1 := Nat.lt_succ_self _
          _ ≤ max acc (f.1 + 1) := Nat.le_max_right _ _
          _ ≤ _ := foldl_max_le rest _
      · exact ih _ f h

theorem computeNextId_gt (l : List (Nat × Bytes)) :
    ∀ f ∈ l, f.1 < computeNextId l :=
  fun f hf => foldl_max_mem l 0 f hf

/-- The invariant of every store state reachable from a fresh store with
the always-flush policy: empty memtable, empty WAL, SSTable ids strictly
ascending and below `next_sstable_id`, and every SSTable file passing
footer verification. -/
def Inv (s : StoreState) : Prop :=
  s.memtable.map = [] ∧ s.wal = [] ∧
  s.sstables.Pairwise (fun a b => a.1 < b.1) ∧
  (∀ f ∈ s.sstables, f.1 < s.nextId) ∧
  (∀ f ∈ s.sstables, sstOpenVerify f.2 = .ok ())

theorem Inv_fresh : Inv freshStore := by
  refine ⟨rfl, rfl, ?_, ?_, ?_⟩ <;> simp [freshStore]

/-- Key/value size bound under which one store operation's SSTable file
stays below `2^64` bytes (every real `usize` input satisfies it). -/
def SOp.small : SOp → Prop
  | .put k v => k.length ≤ 2^60 ∧ v.length ≤ 2^60
  | .del k => k.length ≤ 2^60
  | .flush => True
  | .reopen => True

theorem writeBatch_single_lt (k : Bytes) (ov : Option Bytes)
    (hk : k.length ≤ 2^60)
    (hv : ∀ v, ov = some v → v.length ≤ 2^60) :
    (writeBatch [(k, ov)]).length < 2^64 := by
  rw [writeBatch_length]
  cases ov with
  | none => simp [entrySize]; omega
  | some v =>
      have := hv v rfl
      simp [entrySize]
      omega

theorem put_step (s : StoreState) (k v : Bytes)
    (hmt : s.memtable.map = []) :
    s.put k v =
      { memtable := MemTable.clear, wal := [],
        sstables := s.sstables ++ [(s.nextId, writeBatch [(k, some v)])],
        nextId := s.nextId + 1 } := by
  have hput : (s.memtable.put k v).map = [(k, .value v)] := by
    simp [MemTable.put, hmt, mapInsert]
  rw [StoreState.put]
  simp only [shouldFlush, MemTable.isEmpty, hput, List.isEmpty_cons,
    Bool.not_false, if_pos rfl, flushMemtable, MemTable.entries]
  simp [hput, MemTable.entries, MemTable.isEmpty]

theorem delete_step (s : StoreState) (k : Bytes)
    (hmt : s.memtable.map = []) :
    s.delete k =
      { memtable := MemTable.clear, wal := [],
        sstables := s.sstables ++ [(s.nextId, writeBatch [(k, none)])],
        nextId := s.nextId + 1 } := by
  have hdel : (s.memtable.delete k).map = [(k, .tombstone)] := by
    simp [MemTable.delete, hmt, mapInsert]
  rw [StoreState.delete]
  simp only [shouldFlush, MemTable.isEmpty, hdel, List.isEmpty_cons,
    Bool.not_false, if_pos rfl, flushMemtable, MemTable.entries]
  simp [hdel, MemTable.entries, MemTable.isEmpty]

theorem flush_of_empty (s : StoreState) (hmt : s.memtable.map = []) :
    s.flush = s := by
  rw [StoreState.flush, if_neg (by simp [shouldFlush, MemTable.isEmpty, hmt])]

theorem reopen_eq (s : StoreState) (hInv : Inv s) :
    runOp s .reopen = .ok
      { memtable := MemTable.new, wal := [], sstables := s.sstables,
        nextId := computeNextId s.sstables } := by
  obtain ⟨hmt, hwal, hsort, hlt, hver⟩ := hInv
  rw [runOp, storeOpen, verifyAll_ok s.sstables hver]
  simp only [hwal, Option.getD_some]
  rw [show replayOps [] = MemTable.new from rfl, sortById_sorted s.sstables hsort]

theorem get_of_empty_memtable (s : StoreState) (k : Bytes)
    (hmt : s.memtable.map = []) :
    s.get k = getFromSSTables k s.sstables.reverse := by
  rw [StoreState.get]
  simp [MemTable.get, hmt, mapGet]

theorem getFromSSTables_append (k : Bytes) (x : Nat × Bytes)
    (ss : List (Nat × Bytes)) :
    getFromSSTables k ((ss ++ [x]).reverse) = sstGet x.2 k := by
  rw [List.reverse_append]
  rfl

theorem sstGet_single (k' : Bytes) (ov : Option Bytes) (k : Bytes)
    (hsz : (writeBatch [(k', ov)]).length < 2^64) :
    sstGet (writeBatch [(k', ov)]) k = .ok (if k' = k then ov else none) := by
  rw [sstGet_writeBatch _ _ (by simp) hsz]
  rfl

theorem Inv_put (s : StoreState) (k v : Bytes) (hInv : Inv s)
    (hk : k.length ≤ 2^60) (hv : v.length ≤ 2^60) : Inv (s.put k v) := by
  obtain ⟨hmt, hwal, hsort, hlt, hver⟩ := hInv
  rw [put_step s k v hmt]
  refine ⟨rfl, rfl, ?_, ?_, ?_⟩
  · rw [List.pairwise_append]
    refine ⟨hsort, by simp, ?_⟩
    intro a ha b hb
    simp only [List.mem_singleton] at hb
    subst hb
    exact hlt a ha
  · intro f hf
    rcases List.mem_append.mp hf with h | h
    · exact Nat.lt_succ_of_lt (hlt f h)
    · simp only [List.mem_singleton] at h
      subst h
      exact Nat.lt_succ_self _
  · intro f hf
    rcases List.mem_append.mp hf with h | h
    · exact hver f h
    · simp only [List.mem_singleton] at h
      subst h
      exact sstOpenVerify_writeBatch _
        (writeBatch_single_lt k (some v) hk (by intro w hw; cases hw; exact hv))

theorem Inv_delete (s : StoreState) (k : Bytes) (hInv : Inv s)
    (hk : k.length ≤ 2^60) : Inv (s.delete k) := by
  obtain ⟨hmt, hwal, hsort, hlt, hver⟩ := hInv
  rw [delete_step s k hmt]
  refine ⟨rfl, rfl, ?_, ?_, ?_⟩
  · rw [List.pairwise_append]
    refine ⟨hsort, by simp, ?_⟩
    intro a ha b hb
    simp only [List.mem_singleton] at hb
    subst hb
    exact hlt a ha
  · intro f hf
    rcases List.mem_append.mp hf with h | h
    · exact Nat.lt_succ_of_lt (hlt f h)
    · simp only [List.mem_singleton] at h
      subst h
      exact Nat.lt_succ_self _
  · intro f hf
    rcases List.mem_append.mp hf with h | h
    · exact hver f h
    · simp only [List.mem_singleton] at h
      subst h
      exact sstOpenVerify_writeBatch _
        (writeBatch_single_lt k none hk (by intro w hw; cases hw))

theorem Inv_runOp (s : StoreState) (op : SOp) (hInv : Inv s)
    (hsm : op.small) :
    ∃ t, runOp s op = .ok t ∧ Inv t := by
  obtain ⟨hmt, hwal, hsort, hlt, hver⟩ := hInv
  cases op with
  | put k v => exact ⟨s.put k v, rfl, Inv_put s k v ⟨hmt, hwal, hsort, hlt, hver⟩ hsm.1 hsm.2⟩
  | del k => exact ⟨s.delete k, rfl, Inv_delete s k ⟨hmt, hwal, hsort, hlt, hver⟩ hsm⟩
  | flush =>
      refine ⟨s, ?_, ⟨hmt, hwal, hsort, hlt, hver⟩⟩
      rw [runOp, flush_of_empty s hmt]
  | reopen =>
      refine ⟨_, reopen_eq s ⟨hmt, hwal, hsort, hlt, hver⟩, rfl, rfl, hsort,
        ?_, hver⟩
      exact fun f hf => computeNextId_gt s.sstables f hf

theorem G_runOp (s : StoreState) (op : SOp) (t : StoreState) (k : Bytes)
    (hInv : Inv s) (hG : s.get k = .ok none) (hsm : op.small)
    (hnp : ∀ v, op ≠ .put k v) (h : runOp s op = .ok t) :
    t.get k = .ok none := by
  obtain ⟨hmt, hwal, hsort, hlt, hver⟩ := hInv
  cases op with
  | put k' v' =>
      have hk' : k' ≠ k := by
        intro he
        subst he
        exact hnp v' rfl
      rw [runOp, Except.ok.injEq] at h
      subst h
      rw [put_step s k' v' hmt, get_of_empty_memtable _ _ rfl]
      show getFromSSTables k
        ((s.sstables ++ [(s.nextId, writeBatch [(k', some v')])]).reverse) =
          .ok none
      rw [getFromSSTables_append]
      rw [sstGet_single k' (some v') k
            (writeBatch_single_lt k' (some v') hsm.1
              (by intro w hw; cases hw; exact hsm.2))]
      rw [if_neg hk']
  | del k' =>
      rw [runOp, Except.ok.injEq] at h
      subst h
      rw [delete_step s k' hmt, get_of_empty_memtable _ _ rfl]
      show getFromSSTables k
        ((s.sstables ++ [(s.nextId, writeBatch [(k', none)])]).reverse) =
          .ok none
      rw [getFromSSTables_append]
      rw [sstGet_single k' none k
            (writeBatch_single_lt k' none hsm (by intro w hw; cases hw))]
      rw [ite_self]
  | flush =>
      rw [runOp, flush_of_empty s hmt, Except.ok.injEq] at h
      subst h
      exact hG
  | reopen =>
      rw [reopen_eq s ⟨hmt, hwal, hsort, hlt, hver⟩, Except.ok.injEq] at h
      subst h
      rw [get_of_empty_memtable _ _ rfl]
      rw [get_of_empty_memtable s k hmt] at hG
      exact hG

theorem run_preserves (k : Bytes) (ops : List SOp) :
    ∀ s, Inv s → s.get k = .ok none → (∀ op ∈ ops, op.small) →
      (∀ op ∈ ops, ∀ v, op ≠ .put k v) →
      ∃ t, runOps s ops = .ok t ∧ Inv t ∧ t.get k = .ok none := by
  induction ops with
  | nil => intro s hInv hG _ _; exact ⟨s, rfl, hInv, hG⟩
  | cons op rest ih =>
      intro s hInv hG hsm hnp
      obtain ⟨t, ht, hInvt⟩ := Inv_runOp s op hInv (hsm op (by simp))
      have hGt := G_runOp s op t k hInv hG (hsm op (by simp))
        (hnp op (by simp)) ht
      obtain ⟨u, hu, hInvu, hGu⟩ := ih t hInvt hGt
        (fun o ho => hsm o (by simp [ho])) (fun o ho => hnp o (by simp [ho]))
      refine ⟨u, ?_, hInvu, hGu⟩
      rw [runOps, ht]
      exact hu

theorem runOps_ok (ops : List SOp) :
    ∀ s, Inv s → (∀ op ∈ ops, op.small) →
      ∃ t, runOps s ops = .ok t ∧ Inv t := by
  induction ops with
  | nil => intro s hInv _; exact ⟨s, rfl, hInv⟩
  | cons op rest ih =>
      intro s hInv hsm
      obtain ⟨t, ht, hInvt⟩ := Inv_runOp s op hInv (hsm op (by simp))
      obtain ⟨u, hu, hInvu⟩ := ih t hInvt (fun o ho => hsm o (by simp [ho]))
      refine ⟨u, ?_, hInvu⟩
      rw [runOps, ht]
      exact hu

theorem runOps_append (l1 l2 : List SOp) :
    ∀ s, runOps s (l1 ++ l2) =
      match runOps s l1 with
      | .ok t => runOps t l2
      | .error e => .error e := by
  induction l1 with
  | nil => intro s; rfl
  | cons op rest ih =>
      intro s
      rw [List.cons_append]
      simp only [runOps]
      cases hop : runOp s op with
      | ok t => simp only []; exact ih t
      | error e => rfl

theorem flatLookup_entries (m : List (Bytes × Value)) (k : Bytes) :
    flatLookup
        (m.map fun kv =>
          (kv.1, match kv.2 with | .value v => some v | .tombstone => none))
        k =
      (match mapGet k m with
       | some (.value v) => some v
       | some .tombstone => none
       | none => none) := by
  induction m with
  | nil => rfl
  | cons e rest ih =>
      obtain ⟨k', v'⟩ := e
      simp only [List.map_cons, flatLookup, mapGet]
      by_cases h : k' = k
      · rw [if_pos h, if_pos h]
        cases v' <;> rfl
      · rw [if_neg h, if_neg h]
        exact ih

/-! ## Claims -/

/-- The store state reached by `put [0] [1]; put [2] [3]` on a fresh
store: two single-entry SSTables with ids 0 and 1. -/
def c1Store : StoreState :=
  { memtable := MemTable.new, wal := [],
    sstables := [(0, writeBatch [([0], some [1])]),
                 (1, writeBatch [([2], some [3])])],
    nextId := 2 }

/-- C1: the claim says the store's `get` iterates the SSTables newest to
oldest, returning `Some(v)` from the first SSTable whose `get` returns
`Some`, and returns `None` only if no SSTable returns `Some`.  The code
violates this: in `c1Store` the older SSTable (id 0, a member of the
list) answers `Some [1]` for key `[0]`, yet the store's `get` returns
`None`, because both arms of the loop body return after consulting only
the newest SSTable. -/
theorem c1_get_consults_only_newest_sstable :
    (0, writeBatch [([0], some [1])]) ∈ c1Store.sstables ∧
    sstGet (writeBatch [([0], some [1])]) [0] = .ok (some [1]) ∧
    c1Store.get [0] = .ok none :=
  ⟨by simp [c1Store], rfl, rfl⟩

/-- C2: read-your-writes fails on the code.  After `put [0] [1]` and then
`put [2] [3]` (an operation on a different key), `get [0]` returns
`Ok(None)` instead of the claimed `Some [1]`: each put seals a
single-entry SSTable and the read path only consults the newest one. -/
theorem c2_read_your_writes_fails :
    runGet [SOp.put [0] [1], SOp.put [2] [3]] [0] = .ok none ∧
    runGet [SOp.put [0] [1], SOp.put [2] [3]] [0] ≠ .ok (some [1]) :=
  ⟨rfl, fun h => Option.noConfusion (Except.ok.inj
    ((rfl : runGet [SOp.put [0] [1], SOp.put [2] [3]] [0] =
        .ok none).symm.trans h))⟩

/-- C3: delete shadows put.  After `delete k` on any store reachable from
a fresh store, followed by any operations that never `put k` (puts and
deletes of other keys, flushes, and clean reopens of the same directory,
all with `usize`-sized inputs), `get k` returns `Ok(None)`. -/
theorem delete_shadows_put (pre ops : List SOp) (k : Bytes)
    (hk : k.length ≤ 2^60)
    (hpre : ∀ op ∈ pre, op.small) (hops : ∀ op ∈ ops, op.small)
    (hnp : ∀ op ∈ ops, ∀ v, op ≠ .put k v) :
    runGet (pre ++ SOp.del k :: ops) k = .ok none := by
  obtain ⟨s1, hs1, hInv1⟩ := runOps_ok pre freshStore Inv_fresh hpre
  have hInv2 : Inv (s1.delete k) := Inv_delete s1 k hInv1 hk
  have hG2 : (s1.delete k).get k = .ok none := by
    rw [delete_step s1 k hInv1.1, get_of_empty_memtable _ _ rfl]
    show getFromSSTables k
      ((s1.sstables ++ [(s1.nextId, writeBatch [(k, none)])]).reverse) =
        .ok none
    rw [getFromSSTables_append,
        sstGet_single k none k
          (writeBatch_single_lt k none hk (by intro w hw; cases hw)),
        ite_self]
  obtain ⟨t, ht, hInvt, hGt⟩ :=
    run_preserves k ops (s1.delete k) hInv2 hG2 hops hnp
  rw [runGet, runOps_append pre (SOp.del k :: ops) freshStore]
  simp only [hs1]
  have hstep : runOps s1 (SOp.del k :: ops) = runOps (s1.delete k) ops := rfl
  rw [hstep, ht]
  exact hGt

/-- C3 witness: a concrete run exercising the theorem, with a put before
the delete and a put of a different key after it. -/
theorem delete_shadows_put_witness :
    runGet ([SOp.put [5] [6]] ++ SOp.del [0] :: [SOp.put [1] [2]]) [0] =
      .ok none :=
  delete_shadows_put [SOp.put [5] [6]] [SOp.put [1] [2]] [0]
    (by norm_num)
    (by
      intro op hop
      simp only [List.mem_singleton] at hop
      subst hop
      exact ⟨by norm_num, by norm_num⟩)
    (by
      intro op hop
      simp only [List.mem_singleton] at hop
      subst hop
      exact ⟨by norm_num, by norm_num⟩)
    (by
      intro op hop v
      simp only [List.mem_singleton] at hop
      subst hop
      intro h
      simp [SOp.put.injEq] at h)

/-- C4: SSTable round-trip.  For a batch in strictly ascending unique-key
order (of total encoded size below `2^64`), `write_batch` followed by
`get k` returns `Ok(Some v)` for every entry written as `Some v` and
`Ok(None)` for every entry written as a tombstone. -/
theorem sstable_round_trip (B : List Entry) (k : Bytes) (ov : Option Bytes)
    (hmem : (k, ov) ∈ B) (hasc : keysAscending B)
    (hsz : (writeBatch B).length < 2^64) :
    sstGet (writeBatch B) k = .ok ov := by
  have hne : B ≠ [] := by
    intro h
    subst h
    cases hmem
  rw [sstGet_writeBatch B k hne hsz, flatLookup_of_mem hasc hmem]

/-- C4 witness: a two-entry batch with a present value and a tombstone. -/
theorem sstable_round_trip_witness :
    sstGet (writeBatch [([1], some [2]), ([3], none)]) [3] = .ok none :=
  sstable_round_trip [([1], some [2]), ([3], none)] [3] none
    (by decide)
    (by
      unfold keysAscending
      simp only [List.pairwise_cons, List.mem_singleton, List.not_mem_nil,
        false_implies, implies_true, and_true]
      refine ⟨?_, trivial, List.Pairwise.nil⟩
      intro e he
      subst he
      decide)
    (by decide)

/-- C5 (amended): `SSTable::open` fails with the `Corrupt` kind exactly
when the file is shorter than 24 bytes, the footer magic differs from the
big-endian magic constant, `meta_len` is 0 or exceeds 1024, or
`meta_offset + meta_len > file_size - 24`; the metadata block is read but
never decoded by `open`, so decodability is not checked. -/
theorem sstable_open_corrupt_iff (file : Bytes) :
    (sstOpenVerify file = .error .corrupt ↔ corruptCond file) ∧
    (sstOpenVerify file = .ok () ↔ ¬ corruptCond file) :=
  ⟨(sstOpenVerify_char file).2, (sstOpenVerify_char file).1⟩

/-- A 25-byte file: one metadata byte followed by a well-formed footer
declaring `meta_len = 1`, `meta_offset = 0`. -/
def c5File : Bytes := 0 :: (magicBytes ++ (u64le 1 ++ u64le 0))

/-- C5 counterexample: `open` succeeds on `c5File` although its metadata
block (a single byte) fails to decode, refuting the claim's "or the
metadata block fails to decode" clause. -/
theorem sstable_open_decode_cex :
    sstOpenVerify c5File = .ok () ∧
    decodeMeta ((c5File.drop (metaOffsetOf c5File)).take
      (metaLenOf c5File)) = none :=
  ⟨rfl, rfl⟩

/-- C6: memtable size accounting.  After any sequence of
`put`/`delete`/`clear` operations from a new memtable, `size()` equals
the sum over stored entries of key length plus value length (if present)
or 1 (if tombstone). -/
theorem memtable_size_accounting (ops : List MtOp) :
    (runMtOps ops).size = entriesSize (runMtOps ops).map :=
  foldl_size_invariant ops MemTable.new rfl

/-- A concrete decoder for WAL payloads, accepting only `[7]`. -/
def walDecodeExample : Bytes → Option WalOp :=
  fun p => if p = [7] then some (.delete [7]) else none

/-- C7 (amended): WAL replay reads an 8-byte little-endian length then
that many payload bytes per record, applies the decoded operations in
record order and succeeds at a clean EOF; a payload that fails to decode
reports the corrupt-record (`Deserialization`) kind, while a truncated
final record (length prefix present, payload incomplete) reports the `Io`
kind instead. -/
theorem wal_replay_protocol (decode : Bytes → Option WalOp)
    (ps : List Bytes) (ops : List WalOp) (pbad t : Bytes) (L : Nat) :
    (ps.map decode = ops.map some → (∀ p ∈ ps, p.length < 2^64) →
      walReplay decode (encodeRecords ps) = .ok ops) ∧
    (ps.map decode = ops.map some → (∀ p ∈ ps, p.length < 2^64) →
      pbad.length < 2^64 → decode pbad = none →
      walReplay decode (encodeRecords ps ++ encodeRecord pbad) =
        .error .deserialization) ∧
    (ps.map decode = ops.map some → (∀ p ∈ ps, p.length < 2^64) →
      L < 2^64 → t.length < L →
      walReplay decode (encodeRecords ps ++ (u64le L ++ t)) =
        .error .io) := by
  refine ⟨?_, ?_, ?_⟩
  · intro hdec hlen
    have h := walReplay_records decode ps ops [] hdec hlen
    rw [walReplay_short decode [] (by simp)] at h
    simpa using h
  · intro hdec hlen hpb hdb
    have h2 : walReplay decode (encodeRecord pbad) = .error .deserialization := by
      have h3 := walReplay_record decode pbad [] hpb
      rw [List.append_nil] at h3
      rw [h3, hdb]
    have h := walReplay_records decode ps ops (encodeRecord pbad) hdec hlen
    rw [h2] at h
    simpa using h
  · intro hdec hlen hL ht
    have h2 := walReplay_truncated_tail decode L t hL ht
    have h := walReplay_records decode ps ops (u64le L ++ t) hdec hlen
    rw [h2] at h
    simpa using h

/-- C7 witness: one good record replays; appending an undecodable record
gives the `Deserialization` kind; a truncated final record gives `Io`. -/
theorem wal_replay_protocol_witness :
    walReplay walDecodeExample (encodeRecords [[7]]) =
      .ok [WalOp.delete [7]] ∧
    walReplay walDecodeExample (encodeRecords [[7]] ++ encodeRecord [9]) =
      .error .deserialization ∧
    walReplay walDecodeExample (encodeRecords [[7]] ++ (u64le 5 ++ [1, 2])) =
      .error .io := by
  have h := wal_replay_protocol walDecodeExample [[7]] [WalOp.delete [7]]
    [9] [1, 2] 5
  exact ⟨h.1 rfl (by decide), h.2.1 rfl (by decide) (by decide) rfl,
    h.2.2 rfl (by decide) (by decide) (by decide)⟩

/-- C7 counterexample: on a WAL whose single record has length prefix 3
but only one payload byte, replay reports the `Io` kind, not the
corrupt-record (`Deserialization`) kind the claim states. -/
theorem wal_replay_truncated_kind_cex :
    walReplay walDecodeExample (u64le 3 ++ [1]) = .error .io ∧
    Err.io ≠ Err.deserialization :=
  ⟨rfl, by decide⟩

/-- C8: seal.  On an empty memtable `flush_memtable` is a no-op leaving
the state unchanged; on a non-empty memtable with a successful write it
appends a new SSTable named with `next_sstable_id` holding every memtable
entry (tombstones preserved, as `sstGet` on the new file confirms),
increments the id, clears the memtable and truncates the WAL; and when
the SSTable write fails, the error propagates with the WAL (and all
state) left intact, so the WAL is cleared only after a successful
write. -/
theorem seal_spec (s : StoreState) (writeOk : Bool)
    (hsz : (writeBatch s.memtable.entries).length < 2^64) :
    (s.memtable.isEmpty = true → flushMemtable writeOk s = (s, none)) ∧
    (s.memtable.isEmpty = false → writeOk = true →
      flushMemtable writeOk s =
        ({ memtable := MemTable.clear, wal := [],
           sstables := s.sstables ++
             [(s.nextId, writeBatch s.memtable.entries)],
           nextId := s.nextId + 1 }, none) ∧
      (∀ k val, s.memtable.get k = some val →
        sstGet (writeBatch s.memtable.entries) k =
          .ok (match val with | .value v => some v | .tombstone => none))) ∧
    (s.memtable.isEmpty = false → writeOk = false →
      flushMemtable writeOk s = (s, some .io)) := by
  refine ⟨?_, ?_, ?_⟩
  · intro h
    rw [flushMemtable, if_pos h]
  · intro hne hok
    subst hok
    constructor
    · rw [flushMemtable, if_neg (by simp [hne]), if_pos rfl]
    · intro k val hval
      have hmap : s.memtable.map ≠ [] := by
        intro h
        rw [MemTable.isEmpty, h] at hne
        simp at hne
      have hne' : s.memtable.entries ≠ [] := by
        rw [MemTable.entries]
        simp only [ne_eq, List.map_eq_nil_iff]
        exact hmap
      rw [sstGet_writeBatch _ _ hne' hsz, MemTable.entries,
          flatLookup_entries s.memtable.map k]
      rw [MemTable.get] at hval
      rw [hval]
      cases val <;> rfl
  · intro hne hok
    subst hok
    rw [flushMemtable, if_neg (by simp [hne]), if_neg (by simp)]

/-- C8 witness: sealing a one-entry memtable produces an SSTable from
which the entry reads back. -/
theorem seal_spec_witness :
    sstGet (writeBatch (MemTable.new.put [1] [2]).entries) [1] =
      .ok (some [2]) := by
  have h := (seal_spec ⟨MemTable.new.put [1] [2], [WalOp.put [1] [2]], [], 0⟩
    true (by decide)).2.1 (by decide) rfl
  exact h.2 [1] (.value [2]) rfl

/-- C9: `DB::open` on a nonexistent directory fails with
`DatabaseNotFound` when `create_if_missing` is false, and creates the
directory (yielding the store of a fresh empty directory) when it is
true. -/
theorem open_create_if_missing (create : Bool) :
    (create = false → dbOpen none create = .error .databaseNotFound) ∧
    (create = true → dbOpen none create = .ok freshStore) := by
  constructor
  · intro h
    subst h
    rfl
  · intro h
    subst h
    rfl

/-- C9 witness: both branches at their concrete flag values. -/
theorem open_create_if_missing_witness :
    dbOpen none false = .error .databaseNotFound ∧
    dbOpen none true = .ok freshStore :=
  ⟨(open_create_if_missing false).1 rfl, (open_create_if_missing true).2 rfl⟩

/-- C10: a WAL whose trailing bytes after the last complete record are
fewer than 8 (a truncated length prefix) replays all complete records,
silently discards the partial prefix and returns success; replay of a
nonexistent file also returns success. -/
theorem wal_replay_partial_prefix (decode : Bytes → Option WalOp)
    (ps : List Bytes) (ops : List WalOp) (t : Bytes) :
    (ps.map decode = ops.map some → (∀ p ∈ ps, p.length < 2^64) →
      t.length < 8 → walReplay decode (encodeRecords ps ++ t) = .ok ops) ∧
    walReplayFile decode none = .ok [] := by
  constructor
  · intro hdec hlen ht
    have h := walReplay_records decode ps ops t hdec hlen
    rw [walReplay_short decode t ht] at h
    simpa using h
  · rfl

/-- C10 witness: one good record plus a 3-byte truncated length prefix. -/
theorem wal_replay_partial_prefix_witness :
    walReplay walDecodeExample (encodeRecords [[7]] ++ [9, 9, 9]) =
      .ok [WalOp.delete [7]] ∧
    walReplayFile walDecodeExample none = .ok [] := by
  have h := wal_replay_partial_prefix walDecodeExample [[7]]
    [WalOp.delete [7]] [9, 9, 9]
  exact ⟨h.1 rfl (by decide) (by decide), h.2⟩

end RocksClone
